import Mathlib

/-! Verification of the BibTeX entry parser in
src/perscrutar-lib/src/bibtex/parser.rs, a nom-style recursive-descent
parser over an immutable text buffer. Strings are modelled as `List Char`;
nom's `IResult`, with its recoverable (`Err::Error`) and fatal
(`Err::Failure`) outcomes, is the three-constructor `NRes` type. Every nom
combinator the source uses is given a faithful executable model; the two
looping combinators (`escaped`, `separated_list0`) take a fuel argument
initialised from the input length. Each of their loop iterations consumes
at least one input character in all uses below, so the bound is never
reached on the traced executions. -/

namespace Bibtex

/-- Outcome of a parser: success with the remaining input and a value,
a recoverable error (nom `Err::Error`, lets `alt` try another branch), or
a fatal failure (nom `Err::Failure`, produced by `cut`, never backtracked). -/
inductive NRes (α : Type) where
  | ok : List Char → α → NRes α
  | error : NRes α
  | failure : NRes α
deriving DecidableEq, Repr

/-- A parser consumes a prefix of the input and returns the suffix plus a
result, exactly as the source's `IResult<&str, O>` functions do. -/
abbrev NP (α : Type) : Type := List Char → NRes α

/-- Model of nom `take_while`: consume the maximal prefix satisfying `p`;
always succeeds, possibly consuming nothing. -/
def take_while (p : Char → Bool) : NP (List Char) := fun i =>
  .ok (i.dropWhile p) (i.takeWhile p)

/-- Model of nom `char(c)`: match exactly the character `c`. -/
def charP (c : Char) : NP Char := fun i =>
  match i with
  | [] => .error
  | c' :: rest => if c' = c then .ok rest c else .error

/-- Model of nom `one_of`: match one character from the given set. -/
def one_of (cs : List Char) : NP Char := fun i =>
  match i with
  | [] => .error
  | c :: rest => if cs.contains c then .ok rest c else .error

/-- Model of nom `tag(t)`: match the literal `t` as a prefix. -/
def tagP (t : List Char) : NP (List Char) := fun i =>
  if t.isPrefixOf i then .ok (i.drop t.length) t else .error

/-- Index of the first occurrence of the pattern `t` in the input, used by
the model of nom `take_until`. -/
def takeUntilIdx (t : List Char) : List Char → Option Nat
  | [] => if t.isPrefixOf ([] : List Char) then some 0 else none
  | c :: rest =>
    if t.isPrefixOf (c :: rest) then some 0
    else (takeUntilIdx t rest).map (· + 1)

/-- Model of nom `take_until(t)` (complete): consume up to but not
including the first occurrence of `t`; recoverable error if absent. -/
def take_until (t : List Char) : NP (List Char) := fun i =>
  match takeUntilIdx t i with
  | some k => .ok (i.drop k) (i.take k)
  | none => .error

/-- Model of nom `map`. -/
def mapP (p : NP α) (f : α → β) : NP β := fun i =>
  match p i with
  | .ok i' a => .ok i' (f a)
  | .error => .error
  | .failure => .failure

/-- Model of nom `value`: run the parser, discard its output. -/
def valueP (b : β) (p : NP α) : NP β := mapP p (fun _ => b)

/-- Model of nom `preceded`. -/
def precededP (f : NP α) (g : NP β) : NP β := fun i =>
  match f i with
  | .ok i1 _ => g i1
  | .error => .error
  | .failure => .failure

/-- Model of nom `terminated`. -/
def terminatedP (f : NP α) (g : NP β) : NP α := fun i =>
  match f i with
  | .ok i1 a =>
    match g i1 with
    | .ok i2 _ => .ok i2 a
    | .error => .error
    | .failure => .failure
  | .error => .error
  | .failure => .failure

/-- Model of nom `separated_pair`. -/
def separatedPairP (f : NP α) (s : NP γ) (g : NP β) : NP (α × β) := fun i =>
  match f i with
  | .ok i1 a =>
    match s i1 with
    | .ok i2 _ =>
      match g i2 with
      | .ok i3 b => .ok i3 (a, b)
      | .error => .error
      | .failure => .failure
    | .error => .error
    | .failure => .failure
  | .error => .error
  | .failure => .failure

/-- Model of nom `tuple` for three components. -/
def tuple3P (f : NP α) (g : NP β) (h : NP γ) : NP (α × β × γ) := fun i =>
  match f i with
  | .ok i1 a =>
    match g i1 with
    | .ok i2 b =>
      match h i2 with
      | .ok i3 c => .ok i3 (a, b, c)
      | .error => .error
      | .failure => .failure
    | .error => .error
    | .failure => .failure
  | .error => .error
  | .failure => .failure

/-- Model of nom `alt` for two branches: try the second only on a
recoverable error; a fatal failure is returned unchanged. -/
def altP (f g : NP α) : NP α := fun i =>
  match f i with
  | .error => g i
  | r => r

/-- Model of nom `cut`: turn a recoverable error into a fatal failure. -/
def cutP (p : NP α) : NP α := fun i =>
  match p i with
  | .error => .failure
  | r => r

/-- Model of nom `context`: it only decorates error values, so on this
abstraction it is the identity. -/
def contextP (p : NP α) : NP α := p

/-- Loop of nom 7's `escaped` combinator, translated statement by
statement. `inLen` is the length of the original input (used for the
zero-consumption check nom performs by pointer offset); the result's `ok`
carries the remaining suffix. The fuel decreases once per loop iteration;
every iteration that recurses has consumed at least one character. -/
def escapedGo (normal : NP α) (ctrl : Char) (escp : NP β) (inLen : Nat) :
    Nat → List Char → NRes Unit
  | 0, _ => .error
  | fuel + 1, i =>
    match i with
    | [] => .ok [] ()
    | c :: rest =>
      match normal (c :: rest) with
      | .ok i2 _ =>
        if i2.length = 0 then .ok [] ()
        else if i2.length = (c :: rest).length then .ok (c :: rest) ()
        else escapedGo normal ctrl escp inLen fuel i2
      | .error =>
        if c = ctrl then
          if rest.length = 0 then .error
          else
            match escp rest with
            | .ok i2 _ =>
              if i2.length = 0 then .ok [] ()
              else escapedGo normal ctrl escp inLen fuel i2
            | .error => .error
            | .failure => .failure
        else
          if (c :: rest).length = inLen then .error else .ok (c :: rest) ()
      | .failure => .failure

/-- Model of nom `escaped(normal, ctrl, escp)`: returns the consumed
prefix of the input. -/
def escapedP (normal : NP α) (ctrl : Char) (escp : NP β) : NP (List Char) := fun i =>
  match escapedGo normal ctrl escp i.length (i.length + 1) i with
  | .ok rem _ => .ok rem (i.take (i.length - rem.length))
  | .error => .error
  | .failure => .failure

/-- Loop of nom `separated_list0`, translated statement by statement,
including the guard that errors out when the separator consumes nothing.
The accumulator holds the collected values in reverse. -/
def sepListGo (sep : NP β) (f : NP α) : Nat → List Char → List α → NRes (List α)
  | 0, _, _ => .error
  | fuel + 1, i, acc =>
    match sep i with
    | .error => .ok i acc.reverse
    | .failure => .failure
    | .ok i1 _ =>
      if i1.length = i.length then .error
      else
        match f i1 with
        | .error => .ok i acc.reverse
        | .failure => .failure
        | .ok i2 o => sepListGo sep f fuel i2 (o :: acc)

/-- Model of nom `separated_list0(sep, f)`. -/
def separated_list0 (sep : NP β) (f : NP α) : NP (List α) := fun i =>
  match f i with
  | .error => .ok i []
  | .failure => .failure
  | .ok i1 o => sepListGo sep f (i1.length + 1) i1 [o]

/-- Character class of the source's `sp`: the characters of " \t\r\n". -/
def wsChar (c : Char) : Bool := [' ', '\t', '\r', '\n'].contains c

/-- Character test of `alphabeticlabel`: nom `is_alphabetic(c as u8)` plus
the characters of "-_". The Rust cast `c as u8` truncates the codepoint to
its low byte, so the test is on the codepoint modulo 256. -/
def labelChar (c : Char) : Bool :=
  let b := c.toNat % 256
  (65 ≤ b && b ≤ 90) || (97 ≤ b && b ≤ 122) || ['-', '_'].contains c

/-- Model of nom_unicode `is_alphanumeric`, i.e. Rust
`char::is_alphanumeric` (Unicode Alphabetic or Numeric). The model is
exact for every codepoint below 0x100: ASCII alphanumerics plus the
Latin-1 letters and numeric characters. Codepoints at or above 0x100 are
mapped to false, so the predicate is partial there. Consequently every
character the predicate accepts lies below 0x100 (`anpChar_latin1`):
a hypothesis that characters satisfy the predicate already confines a
theorem to the exact region, while a theorem that uses the predicate
negatively carries an explicit codepoint bound restricting it to that
region. -/
def rustIsAlphanumeric (c : Char) : Bool :=
  let n := c.toNat
  (48 ≤ n && n ≤ 57) || (65 ≤ n && n ≤ 90) || (97 ≤ n && n ≤ 122) ||
  n == 0xAA || n == 0xB5 || n == 0xBA ||
  n == 0xB2 || n == 0xB3 || n == 0xB9 ||
  n == 0xBC || n == 0xBD || n == 0xBE ||
  (0xC0 ≤ n && n ≤ 0xFF && n != 0xD7 && n != 0xF7)

/-- Character test of `alphanumericplus`: Unicode alphanumeric plus the
characters of the source string "-_.,;:/ ^$+*\\\n" (note that both the
backslash and the newline are members). Exact below codepoint 0x100,
like `rustIsAlphanumeric` from which it inherits that region. -/
def anpChar (c : Char) : Bool :=
  rustIsAlphanumeric c ||
  ['-', '_', '.', ',', ';', ':', '/', ' ', '^', '$', '+', '*', '\\', '\n'].contains c

/-- Source `sp`: skip zero or more whitespace characters. -/
def sp : NP (List Char) := take_while wsChar

/-- Source `alphabeticlabel`: maximal run of label characters. -/
def alphabeticlabel : NP (List Char) := take_while labelChar

/-- Source `alphanumericplus`: maximal run of value characters. -/
def alphanumericplus : NP (List Char) := take_while anpChar

/-- Source `parse_str`: `escaped(alphanumericplus, '\\', one_of("\"n\\"))`. -/
def parse_str : NP (List Char) :=
  escapedP alphanumericplus '\\' (one_of ['"', 'n', '\\'])

/-- Source `eolcomment`: `#`, everything up to a newline, and the newline,
all discarded. -/
def eolcomment : NP Unit :=
  valueP () (tuple3P (tagP ['#']) (take_until ['\n']) (tagP ['\n']))

/-- Source `parse_str_with_comments`: runs separated by elided comments,
concatenated in order. -/
def parse_str_with_comments : NP (List Char) :=
  mapP (separated_list0 eolcomment parse_str) (fun rs => rs.flatten)

/-- Source `alphabeticlabel_comment`: a label optionally followed by a
full-line comment. -/
def alphabeticlabel_comment : NP (List Char) :=
  altP (terminatedP alphabeticlabel eolcomment) alphabeticlabel

/-- Source `string_spm`: a double-quote delimited value body. -/
def string_spm : NP (List Char) :=
  contextP (precededP (charP '"') (cutP (terminatedP parse_str_with_comments (charP '"'))))

/-- Source `string_brc`: a brace delimited value body. -/
def string_brc : NP (List Char) :=
  contextP (precededP (charP '{') (cutP (terminatedP parse_str_with_comments (charP '}'))))

/-- Source `key_value`: label, `=` under `cut`, then a quoted or braced
value. -/
def key_value : NP (List Char × List Char) :=
  separatedPairP
    (precededP sp alphabeticlabel_comment)
    (cutP (precededP sp (charP '=')))
    (precededP sp (altP string_spm string_brc))

/-- The local `sep` alternation inside the source's `kvlist`, in the same
branch order. -/
def kvsep : NP (List Char) :=
  altP (terminatedP (precededP sp (tagP [','])) (precededP sp eolcomment))
    (altP (terminatedP (tagP [',']) (precededP sp eolcomment))
      (altP (terminatedP (precededP sp (tagP [','])) eolcomment)
        (altP (precededP sp (tagP [','])) (tagP [',']))))

/-- Insertion into the association-list model of the source's `HashMap`:
a later duplicate key overwrites the earlier value. -/
def insertKV : List (List Char × List Char) → List Char → List Char →
    List (List Char × List Char)
  | [], k, v => [(k, v)]
  | (k', v') :: rest, k, v =>
    if k' = k then (k', v) :: rest else (k', v') :: insertKV rest k v

/-- Model of `collect::<HashMap<_, _>>()` over the pair list. -/
def mkMap (l : List (List Char × List Char)) : List (List Char × List Char) :=
  l.foldl (fun m p => insertKV m p.1 p.2) []

/-- Source `kvlist`: comma-separated key-value pairs folded into a map,
with trailing whitespace consumed, all under `cut`. -/
def kvlist : NP (List (List Char × List Char)) :=
  contextP (cutP (terminatedP (mapP (separated_list0 kvsep key_value) mkMap) sp))

/-- Source `bibentry`: `@`, type label, `{`, citation key, `,`, field
list, `}`; everything after the `@` is under `cut`. -/
def bibentry : NP (List Char × List Char × List (List Char × List Char)) :=
  contextP (precededP sp (precededP (charP '@')
    (tuple3P
      (cutP (terminatedP (terminatedP alphabeticlabel_comment sp) (charP '{')))
      (cutP (terminatedP (precededP sp (terminatedP alphabeticlabel_comment sp)) (charP ',')))
      (cutP (terminatedP kvlist (charP '}'))))))

/-- Specification-level comment elision, following the spec's words: copy
characters, and on `#` discard through and including the next newline.
The Bool flag records being inside a comment. -/
def stripCommentsGo : Bool → List Char → List Char
  | _, [] => []
  | true, c :: rest =>
    if c = '\n' then stripCommentsGo false rest else stripCommentsGo true rest
  | false, c :: rest =>
    if c = '#' then stripCommentsGo true rest else c :: stripCommentsGo false rest

/-- Specification-level "body text with each comment span deleted". -/
def stripComments (l : List Char) : List Char := stripCommentsGo false l

/-- Renders an alternating comment/run suffix of a value body: each entry
is a comment text (no newline) followed by a run of value characters. -/
def renderSegs : List (List Char × List Char) → List Char
  | [] => []
  | (cm, r) :: ps => '#' :: (cm ++ '\n' :: r) ++ renderSegs ps

/-- Renders a full value body: an initial run followed by alternating
comments and runs. -/
def renderBody (r0 : List Char) (ps : List (List Char × List Char)) : List Char :=
  r0 ++ renderSegs ps

/-- Wellformedness of the comment/run segments: comment texts contain no
newline, runs contain only value characters. -/
def segsWF (ps : List (List Char × List Char)) : Bool :=
  ps.all fun p => p.1.all (· != '\n') && p.2.all anpChar

/-- The canonical rendering of one key-value pair, `label = {value}`. -/
def kvRender (l v : List Char) : List Char :=
  l ++ ' ' :: '=' :: ' ' :: '{' :: (v ++ ['}'])

/-- A suffix on which a value-body scan stops: empty, or starting with a
character that is neither a value character nor a comment marker. -/
def tailOK (l : List Char) : Prop :=
  ∀ c, l.head? = some c → anpChar c = false ∧ c ≠ '#'

/-- The head of the list, if any, falsifies `p`. -/
def headNot (p : Char → Bool) (l : List Char) : Prop :=
  ∀ c, l.head? = some c → p c = false

/-- The claimed label character set read literally from the spec's words:
letters (ASCII alphabetic) plus `-` and `_`. Kept separate from
`labelChar` so the two can be compared. -/
def specLabelChar (c : Char) : Bool := c.isAlpha || c == '-' || c == '_'

/-! Basic facts about maximal-run scanning. -/

lemma dropWhile_head_false (p : Char → Bool) :
    ∀ (l : List Char) (c : Char) (r : List Char), l.dropWhile p = c :: r → p c = false := by
  intro l
  induction l with
  | nil => intro c r h; simp at h
  | cons a l' ih =>
    intro c r h
    by_cases hpa : p a = true
    · rw [List.dropWhile_cons, if_pos hpa] at h
      exact ih c r h
    · rw [List.dropWhile_cons, if_neg hpa] at h
      cases h
      simpa using hpa

lemma takeWhile_append_of (p : Char → Bool) :
    ∀ (r Z : List Char), r.all p = true → headNot p Z →
      (r ++ Z).takeWhile p = r ∧ (r ++ Z).dropWhile p = Z := by
  intro r
  induction r with
  | nil =>
    intro Z _ hz
    cases Z with
    | nil => simp
    | cons c Z' =>
      have hc := hz c rfl
      simp [List.takeWhile_cons, List.dropWhile_cons, hc]
  | cons a r' ih =>
    intro Z hall hz
    simp only [List.all_cons, Bool.and_eq_true] at hall
    obtain ⟨ha, hr'⟩ := hall
    have h := ih Z hr' hz
    simp [List.takeWhile_cons, List.dropWhile_cons, ha, h.1, h.2]

lemma take_sub_dropWhile (p : Char → Bool) (i : List Char) :
    i.take (i.length - (i.dropWhile p).length) = i.takeWhile p := by
  have hsplit := List.takeWhile_append_dropWhile (p := p) (l := i)
  have hlen : (i.takeWhile p).length + (i.dropWhile p).length = i.length := by
    conv_rhs => rw [← hsplit]
    rw [List.length_append]
  have h2 : i.length - (i.dropWhile p).length = (i.takeWhile p).length := by omega
  rw [h2]
  have h3 := List.take_left (i.takeWhile p) (i.dropWhile p)
  rwa [hsplit] at h3

/-! The `escaped` loop over a `take_while` scanner is the scanner itself:
the run set of `alphanumericplus` contains the backslash, so the normal
parser never fails and the escape branch is unreachable. -/

lemma escapedGo_takeWhile (p : Char → Bool) (ctrl : Char) (escp : NP β) (inLen : Nat) :
    ∀ (fuel : Nat) (i : List Char), i.length < fuel →
      escapedGo (take_while p) ctrl escp inLen fuel i = .ok (i.dropWhile p) () := by
  intro fuel
  induction fuel with
  | zero => intro i h; exact absurd h (Nat.not_lt_zero _)
  | succ n ih =>
    intro i h
    cases i with
    | nil => simp [escapedGo]
    | cons c rest =>
      have hsplit := List.takeWhile_append_dropWhile (p := p) (l := c :: rest)
      have hlen : ((c :: rest).takeWhile p).length + ((c :: rest).dropWhile p).length
          = (c :: rest).length := by
        conv_rhs => rw [← hsplit]
        rw [List.length_append]
      by_cases h0 : ((c :: rest).dropWhile p).length = 0
      · have hd : (c :: rest).dropWhile p = [] := List.length_eq_zero.mp h0
        simp [escapedGo, take_while, h0, hd]
      · by_cases h1 : ((c :: rest).dropWhile p).length = (c :: rest).length
        · have ht0 : ((c :: rest).takeWhile p).length = 0 := by omega
          have ht : (c :: rest).takeWhile p = [] := List.length_eq_zero.mp ht0
          have hd : (c :: rest).dropWhile p = c :: rest := by
            conv_rhs => rw [← hsplit]
            rw [ht, List.nil_append]
          simp [escapedGo, take_while, h0, h1, hd]
        · obtain ⟨c', r', hd⟩ : ∃ c' r', (c :: rest).dropWhile p = c' :: r' := by
            cases hdd : (c :: rest).dropWhile p with
            | nil => rw [hdd] at h0; simp at h0
            | cons a b => exact ⟨a, b, rfl⟩
          have hpc' : p c' = false := dropWhile_head_false p _ _ _ hd
          have hrec := ih ((c :: rest).dropWhile p) (by omega)
          have hfix : ((c :: rest).dropWhile p).dropWhile p = (c :: rest).dropWhile p := by
            rw [hd]
            simp [List.dropWhile_cons, hpc']
          simp only [escapedGo, take_while, h0, h1, if_false, if_neg]
          rw [hrec, hfix]

lemma parse_str_spec (i : List Char) :
    parse_str i = .ok (i.dropWhile anpChar) (i.takeWhile anpChar) := by
  have h := escapedGo_takeWhile anpChar '\\' (one_of ['"', 'n', '\\']) i.length
    (i.length + 1) i (by omega)
  unfold parse_str escapedP alphanumericplus
  rw [h]
  simp only [take_sub_dropWhile]

/-! Behaviour of the comment eater. -/

lemma takeUntilIdx_newline (cm rest : List Char) (hc : cm.all (· != '\n') = true) :
    takeUntilIdx ['\n'] (cm ++ '\n' :: rest) = some cm.length := by
  induction cm with
  | nil => simp [takeUntilIdx, List.isPrefixOf]
  | cons c cm' ih =>
    simp only [List.all_cons, Bool.and_eq_true] at hc
    obtain ⟨h1, h2⟩ := hc
    have hcne : c ≠ '\n' := by simpa using h1
    have hcs : ('\n' == c) = false := beq_eq_false_iff_ne.mpr (Ne.symm hcne)
    simp [takeUntilIdx, List.isPrefixOf, hcs, ih h2]

lemma eolcomment_render (cm rest : List Char) (hc : cm.all (· != '\n') = true) :
    eolcomment ('#' :: (cm ++ '\n' :: rest)) = .ok rest () := by
  have h1 : tagP ['#'] ('#' :: (cm ++ '\n' :: rest)) = .ok (cm ++ '\n' :: rest) ['#'] := by
    simp [tagP, List.isPrefixOf]
  have h2 : take_until ['\n'] (cm ++ '\n' :: rest) = .ok ('\n' :: rest) cm := by
    simp [take_until, takeUntilIdx_newline cm rest hc, List.drop_left, List.take_left]
  have h3 : tagP ['\n'] ('\n' :: rest) = .ok rest ['\n'] := by
    simp [tagP, List.isPrefixOf]
  simp only [eolcomment, valueP, mapP, tuple3P, h1, h2, h3]

lemma eolcomment_not_hash (i : List Char) (h : ∀ c, i.head? = some c → c ≠ '#') :
    eolcomment i = .error := by
  cases i with
  | nil => rfl
  | cons c rest =>
    have hc := h c rfl
    have hcs : ('#' == c) = false := beq_eq_false_iff_ne.mpr (Ne.symm hc)
    simp [eolcomment, valueP, mapP, tuple3P, tagP, List.isPrefixOf, hcs]

lemma anp_hash : anpChar '#' = false := by decide

lemma renderSegs_headNot (ps : List (List Char × List Char)) (tail : List Char)
    (ht : tailOK tail) : headNot anpChar (renderSegs ps ++ tail) := by
  cases ps with
  | nil =>
    intro c hc
    rw [renderSegs, List.nil_append] at hc
    exact (ht c hc).1
  | cons q ps' =>
    intro c hc
    obtain ⟨cm, r⟩ := q
    simp only [renderSegs, List.cons_append, List.head?_cons, Option.some_inj] at hc
    rw [← hc]
    exact anp_hash

lemma renderSegs_length_ge (ps : List (List Char × List Char)) :
    ps.length ≤ (renderSegs ps).length := by
  induction ps with
  | nil => simp [renderSegs]
  | cons q ps' ih =>
    obtain ⟨cm, r⟩ := q
    simp only [renderSegs, List.length_cons, List.length_append]
    omega

/-! The separated-list loop of `parse_str_with_comments` over a rendered
comment/run body. -/

lemma sepListGo_segs :
    ∀ (ps : List (List Char × List Char)) (fuel : Nat) (tail : List Char)
      (acc : List (List Char)),
      segsWF ps = true → tailOK tail → ps.length < fuel →
      sepListGo eolcomment parse_str fuel (renderSegs ps ++ tail) acc
        = .ok tail (acc.reverse ++ ps.map Prod.snd) := by
  intro ps
  induction ps with
  | nil =>
    intro fuel tail acc _ ht hf
    obtain ⟨n, rfl⟩ : ∃ n, fuel = n + 1 := ⟨fuel - 1, by omega⟩
    have he : eolcomment tail = .error := eolcomment_not_hash tail (fun c hc => (ht c hc).2)
    simp [renderSegs, sepListGo, he]
  | cons q ps' ih =>
    intro fuel tail acc hwf ht hf
    obtain ⟨cm, r⟩ := q
    obtain ⟨n, rfl⟩ : ∃ n, fuel = n + 1 := ⟨fuel - 1, by omega⟩
    unfold segsWF at hwf
    simp only [List.all_cons, Bool.and_eq_true] at hwf
    obtain ⟨⟨hcm, hr⟩, hps'⟩ := hwf
    have hin : renderSegs ((cm, r) :: ps') ++ tail
        = '#' :: (cm ++ '\n' :: (r ++ (renderSegs ps' ++ tail))) := by
      simp [renderSegs, List.cons_append, List.append_assoc]
    have he := eolcomment_render cm (r ++ (renderSegs ps' ++ tail)) hcm
    have hstep : parse_str (r ++ (renderSegs ps' ++ tail))
        = .ok (renderSegs ps' ++ tail) r := by
      rw [parse_str_spec]
      have h := takeWhile_append_of anpChar r (renderSegs ps' ++ tail) hr
        (renderSegs_headNot ps' tail ht)
      rw [h.1, h.2]
    have hguard : ¬ ((r ++ (renderSegs ps' ++ tail)).length
        = ('#' :: (cm ++ '\n' :: (r ++ (renderSegs ps' ++ tail)))).length) := by
      simp only [List.length_cons, List.length_append]
      omega
    have hih := ih n tail (r :: acc) (by simpa [segsWF] using hps') ht
      (by simp only [List.length_cons] at hf; omega)
    rw [hin]
    simp only [sepListGo, he, if_neg hguard, hstep, hih]
    simp [List.reverse_cons, List.append_assoc]

lemma pswc_render (r0 : List Char) (ps : List (List Char × List Char)) (tail : List Char)
    (h0 : r0.all anpChar = true) (hps : segsWF ps = true) (ht : tailOK tail) :
    parse_str_with_comments (r0 ++ renderSegs ps ++ tail)
      = .ok tail ((r0 :: ps.map Prod.snd).flatten) := by
  have hf : parse_str (r0 ++ (renderSegs ps ++ tail)) = .ok (renderSegs ps ++ tail) r0 := by
    rw [parse_str_spec]
    have h := takeWhile_append_of anpChar r0 (renderSegs ps ++ tail) h0
      (renderSegs_headNot ps tail ht)
    rw [h.1, h.2]
  have hloop := sepListGo_segs ps ((renderSegs ps ++ tail).length + 1) tail [r0] hps ht
    (by have := renderSegs_length_ge ps; simp only [List.length_append]; omega)
  unfold parse_str_with_comments mapP separated_list0
  rw [List.append_assoc]
  simp only [hf, hloop]
  simp

/-! Comment deletion distributes over the rendered body. -/

lemma anp_ne_hash (c : Char) (h : anpChar c = true) : c ≠ '#' := by
  intro hc
  subst hc
  exact absurd h (by decide)

lemma stripGo_append (r X : List Char) (hr : ∀ c ∈ r, c ≠ '#') :
    stripCommentsGo false (r ++ X) = r ++ stripCommentsGo false X := by
  induction r with
  | nil => simp
  | cons a r' ih =>
    have ha : a ≠ '#' := hr a (List.mem_cons_self a r')
    have ih' := ih (fun c hc => hr c (List.mem_cons_of_mem a hc))
    simp [stripCommentsGo, ha, ih']

lemma stripGo_skip (cm : List Char) :
    ∀ rest, cm.all (· != '\n') = true →
      stripCommentsGo true (cm ++ '\n' :: rest) = stripCommentsGo false rest := by
  induction cm with
  | nil => intro rest _; simp [stripCommentsGo]
  | cons c cm' ih =>
    intro rest hc
    simp only [List.all_cons, Bool.and_eq_true] at hc
    have hcne : c ≠ '\n' := by simpa using hc.1
    simp [stripCommentsGo, hcne, ih rest hc.2]

lemma stripGo_comment (cm rest : List Char) (hc : cm.all (· != '\n') = true) :
    stripCommentsGo false ('#' :: (cm ++ '\n' :: rest)) = stripCommentsGo false rest := by
  have h1 : stripCommentsGo false ('#' :: (cm ++ '\n' :: rest))
      = stripCommentsGo true (cm ++ '\n' :: rest) := by
    simp [stripCommentsGo]
  rw [h1, stripGo_skip cm rest hc]

lemma strip_render :
    ∀ (ps : List (List Char × List Char)) (r0 : List Char),
      r0.all anpChar = true → segsWF ps = true →
      stripComments (renderBody r0 ps) = (r0 :: ps.map Prod.snd).flatten := by
  intro ps
  induction ps with
  | nil =>
    intro r0 h0 _
    have hr : ∀ c ∈ r0, c ≠ '#' := by
      intro c hc
      rw [List.all_eq_true] at h0
      exact anp_ne_hash c (h0 c hc)
    have h := stripGo_append r0 [] hr
    simp only [List.append_nil, stripCommentsGo] at h
    simpa [renderBody, renderSegs, stripComments] using h
  | cons q ps' ih =>
    intro r0 h0 hwf
    obtain ⟨cm, r⟩ := q
    unfold segsWF at hwf
    simp only [List.all_cons, Bool.and_eq_true] at hwf
    obtain ⟨⟨hcm, hr⟩, hps'⟩ := hwf
    have hnoh : ∀ c ∈ r0, c ≠ '#' := by
      intro c hc
      rw [List.all_eq_true] at h0
      exact anp_ne_hash c (h0 c hc)
    have hbody : renderBody r0 ((cm, r) :: ps')
        = r0 ++ ('#' :: (cm ++ '\n' :: renderBody r ps')) := by
      simp [renderBody, renderSegs, List.append_assoc, List.cons_append]
    rw [hbody]
    unfold stripComments
    rw [stripGo_append _ _ hnoh, stripGo_comment cm _ hcm]
    have hih := ih r hr (by simpa [segsWF] using hps')
    unfold stripComments at hih
    rw [hih]
    simp

/-- C1: for every wellformed quoted or braced value body — runs of value
characters interleaved with full-line comments — `parse_str_with_comments`
consumes the whole body and assembles exactly the body text with each
comment span (from `#` through and including its terminating newline)
deleted and the adjoining runs concatenated directly with no inserted
separator. -/
theorem c1_comment_elision (r0 : List Char) (ps : List (List Char × List Char))
    (h0 : r0.all anpChar = true) (hps : segsWF ps = true) :
    parse_str_with_comments (renderBody r0 ps)
      = .ok [] (stripComments (renderBody r0 ps)) := by
  have h := pswc_render r0 ps [] h0 hps (fun c hc => by simp at hc)
  rw [strip_render ps r0 h0 hps]
  simpa [renderBody] using h

/-- Witness for C1 at the spec's unicode example: the body
`Sömé # note\nÀüthör` assembles to `Sömé Àüthör`. -/
theorem c1_witness :
    parse_str_with_comments (("Sömé # note\nÀüthör").toList)
      = .ok [] (("Sömé Àüthör").toList) := by
  have h := c1_comment_elision (("Sömé ").toList)
    [((" note").toList, ("Àüthör").toList)] (by decide) (by decide)
  have e1 : renderBody (("Sömé ").toList) [((" note").toList, ("Àüthör").toList)]
      = ("Sömé # note\nÀüthör").toList := by decide
  have e2 : stripComments (("Sömé # note\nÀüthör").toList)
      = ("Sömé Àüthör").toList := by decide
  rw [e1, e2] at h
  exact h

/-! Maximal-run facts used by the C6 and C9 statements. -/

lemma all_takeWhile (p : Char → Bool) (l : List Char) : (l.takeWhile p).all p = true := by
  induction l with
  | nil => rfl
  | cons a l' ih =>
    by_cases h : p a = true
    · simp [List.takeWhile_cons, h, ih]
    · simp [List.takeWhile_cons, h]

lemma takeWhile_dropWhile_nil (p : Char → Bool) (l : List Char) :
    (l.dropWhile p).takeWhile p = [] := by
  cases hd : l.dropWhile p with
  | nil => rfl
  | cons c r =>
    have h := dropWhile_head_false p l c r hd
    simp [List.takeWhile_cons, h]

/-- C6 counterexample: in the input `\&` the backslash is followed by
`&`, which is not one of `"`, `n`, `\`; the claim says the scan primitive
does not match that backslash, yet `parse_str` consumes it as an
ordinary run character and stops only at the `&`. -/
theorem c6_counterexample :
    parse_str ['\\', '&'] = .ok ['&'] ['\\'] ∧
    parse_str ['\\', '&'] ≠ .ok ['\\', '&'] [] := by
  decide

/-- C6 amended: the backslash is itself in the run character set of
`alphanumericplus`, and that scanner never fails, so the escape branch of
`escaped` is unreachable: `parse_str` performs exactly the maximal run
scan, consuming a backslash regardless of the character that follows. -/
theorem c6_backslash_run (i : List Char) :
    parse_str i = .ok (i.dropWhile anpChar) (i.takeWhile anpChar) ∧
    anpChar '\\' = true :=
  ⟨parse_str_spec i, by decide⟩

/-- C9 counterexample: `Ł` (U+0141) is consumed by `alphabeticlabel`
because its codepoint truncated to a byte is the code of `A`, yet it is
not an ASCII letter and not `-` or `_`, so the scanner does not consume
the maximal prefix of letters and `-`, `_` the claim describes. -/
theorem c9_counterexample :
    alphabeticlabel ['Ł'] = .ok [] ['Ł'] ∧ specLabelChar 'Ł' = false ∧
    alphabeticlabel ['Ł']
      ≠ .ok (List.dropWhile specLabelChar ['Ł']) (List.takeWhile specLabelChar ['Ł']) := by
  decide

/-- C9 amended: `alphabeticlabel` consumes exactly the maximal prefix of
characters accepted by `labelChar` — codepoint modulo 256 in the ASCII
letter ranges, plus `-` and `_`; on ASCII input this is exactly letters
plus `-`, `_`, but a character at or above U+0080 is classified by its
low byte. A zero-length run succeeds with the empty label. -/
theorem c9_label_scan (i : List Char) :
    alphabeticlabel i = .ok (i.dropWhile labelChar) (i.takeWhile labelChar) ∧
    i.takeWhile labelChar ++ i.dropWhile labelChar = i ∧
    (i.takeWhile labelChar).all labelChar = true ∧
    (i.dropWhile labelChar).takeWhile labelChar = [] ∧
    alphabeticlabel [] = .ok [] [] :=
  ⟨rfl, List.takeWhile_append_dropWhile labelChar i, all_takeWhile labelChar i,
    takeWhile_dropWhile_nil labelChar i, rfl⟩

/-! The commit structure of the entry parser. -/

lemma cutP_ne_error (p : NP α) (i : List Char) : cutP p i ≠ .error := by
  unfold cutP
  cases p i <;> simp

lemma tuple3_cut_ne_error (p : NP α) (q : NP β) (r : NP γ) (i : List Char) :
    tuple3P (cutP p) (cutP q) (cutP r) i ≠ .error := by
  unfold tuple3P
  cases hp : cutP p i with
  | error => exact absurd hp (cutP_ne_error p i)
  | failure => simp
  | ok i1 a =>
    cases hq : cutP q i1 with
    | error => exact absurd hq (cutP_ne_error q i1)
    | failure => simp [hq]
    | ok i2 b =>
      cases hr : cutP r i2 with
      | error => exact absurd hr (cutP_ne_error r i2)
      | failure => simp [hq, hr]
      | ok i3 c => simp [hq, hr]

/-- C4: the entry parser commits at `@`: when the first character after
leading whitespace is not `@` (or the input ends before one), `bibentry`
fails with a recoverable error, so a caller scanning a larger document
can backtrack; once the `@` has been consumed, `bibentry` never returns
a recoverable error — every subsequent failure is fatal. -/
theorem c4_commit_policy (i : List Char) :
    ((i.dropWhile wsChar).head? ≠ some '@' → bibentry i = .error) ∧
    ((i.dropWhile wsChar).head? = some '@' → bibentry i ≠ .error) := by
  constructor
  · intro h
    unfold bibentry contextP precededP
    simp only [sp, take_while]
    cases hd : i.dropWhile wsChar with
    | nil => rfl
    | cons c rest =>
      rw [hd] at h
      have hc : c ≠ '@' := by
        intro hc
        exact h (by subst hc; rfl)
      simp [charP, hc]
  · intro h
    unfold bibentry contextP precededP
    simp only [sp, take_while]
    cases hd : i.dropWhile wsChar with
    | nil =>
      rw [hd] at h
      simp at h
    | cons c rest =>
      rw [hd] at h
      simp only [List.head?_cons, Option.some_inj] at h
      subst h
      simp only [charP, if_pos rfl]
      exact tuple3_cut_ne_error _ _ _ rest

/-- Witness for C4: a non-entry prefix yields the recoverable error, and
an input whose first non-whitespace character is `@` never yields one. -/
theorem c4_witness :
    bibentry (("  x").toList) = .error ∧ bibentry (("@x").toList) ≠ .error :=
  ⟨(c4_commit_policy (("  x").toList)).1 (by decide),
    (c4_commit_policy (("@x").toList)).2 (by decide)⟩

/-! Character-class facts and scan-splitting lemmas for the key-value
machinery. -/

lemma ws_label_false (c : Char) (h : wsChar c = true) : labelChar c = false := by
  have hmem : c = ' ' ∨ c = '\t' ∨ c = '\r' ∨ c = '\n' := by
    simpa [wsChar] using h
  rcases hmem with h | h | h | h <;> subst h <;> decide

lemma label_not_ws (c : Char) (h : labelChar c = true) : wsChar c = false := by
  cases hw : wsChar c
  · rfl
  · rw [ws_label_false c hw] at h
    exact absurd h (by simp)

lemma ws_ne_hash (c : Char) (h : wsChar c = true) : c ≠ '#' := by
  intro hc
  subst hc
  exact absurd h (by decide)

lemma headNot_cons (q : Char → Bool) (c : Char) (t : List Char) (h : q c = false) :
    headNot q (c :: t) := by
  intro x hx
  simp only [List.head?_cons, Option.some_inj] at hx
  subst hx
  exact h

lemma headNot_ws_append (w : List Char) (c : Char) (Y : List Char) (q : Char → Bool)
    (hw : w.all wsChar = true) (hws : ∀ x, wsChar x = true → q x = false)
    (hc : q c = false) : headNot q (w ++ c :: Y) := by
  cases w with
  | nil => exact headNot_cons q c Y hc
  | cons a w' =>
    simp only [List.all_cons, Bool.and_eq_true] at hw
    exact headNot_cons q a (w' ++ c :: Y) (hws a hw.1)

lemma headNe_hash_ws_append (w : List Char) (c : Char) (Y : List Char)
    (hw : w.all wsChar = true) (hc : c ≠ '#') :
    ∀ x, (w ++ c :: Y).head? = some x → x ≠ '#' := by
  cases w with
  | nil =>
    intro x hx
    simp only [List.nil_append, List.head?_cons, Option.some_inj] at hx
    subst hx
    exact hc
  | cons a w' =>
    intro x hx
    simp only [List.cons_append, List.head?_cons, Option.some_inj] at hx
    subst hx
    simp only [List.all_cons, Bool.and_eq_true] at hw
    exact ws_ne_hash a hw.1

lemma sp_split (w rest : List Char) (hw : w.all wsChar = true) (hr : headNot wsChar rest) :
    sp (w ++ rest) = .ok rest w := by
  have h := takeWhile_append_of wsChar w rest hw hr
  unfold sp take_while
  rw [h.1, h.2]

lemma alphabeticlabel_split (l rest : List Char) (hl : l.all labelChar = true)
    (hr : headNot labelChar rest) : alphabeticlabel (l ++ rest) = .ok rest l := by
  have h := takeWhile_append_of labelChar l rest hl hr
  unfold alphabeticlabel take_while
  rw [h.1, h.2]

lemma alc_split (l rest : List Char) (hl : l.all labelChar = true)
    (hr : headNot labelChar rest) (hh : ∀ c, rest.head? = some c → c ≠ '#') :
    alphabeticlabel_comment (l ++ rest) = .ok rest l := by
  have hlab := alphabeticlabel_split l rest hl hr
  have hec : eolcomment rest = .error := eolcomment_not_hash rest hh
  unfold alphabeticlabel_comment altP terminatedP
  simp only [hlab, hec]

/-! Delimited-string lemmas. -/

lemma pswc_run (v rest : List Char) (hv : v.all anpChar = true) (ht : tailOK rest) :
    parse_str_with_comments (v ++ rest) = .ok rest v := by
  have h := pswc_render v [] rest hv (by decide) ht
  simpa [renderSegs] using h

lemma tailOK_cons (c : Char) (rest : List Char) (h1 : anpChar c = false) (h2 : c ≠ '#') :
    tailOK (c :: rest) := by
  intro x hx
  simp only [List.head?_cons, Option.some_inj] at hx
  subst hx
  exact ⟨h1, h2⟩

lemma tailOK_nil : tailOK ([] : List Char) := by
  intro x hx
  simp at hx

lemma string_brc_body (v rest : List Char) (hv : v.all anpChar = true) :
    string_brc ('{' :: (v ++ '}' :: rest)) = .ok rest v := by
  have hp := pswc_run v ('}' :: rest) hv (tailOK_cons '}' rest (by decide) (by decide))
  unfold string_brc contextP precededP cutP terminatedP
  simp [charP, hp]

lemma string_spm_body (v rest : List Char) (hv : v.all anpChar = true) :
    string_spm ('"' :: (v ++ '"' :: rest)) = .ok rest v := by
  have hp := pswc_run v ('"' :: rest) hv (tailOK_cons '"' rest (by decide) (by decide))
  unfold string_spm contextP precededP cutP terminatedP
  simp [charP, hp]

lemma string_brc_unterm (v : List Char) (hv : v.all anpChar = true) :
    string_brc ('{' :: v) = .failure := by
  have hp : parse_str_with_comments (v ++ []) = .ok [] v := pswc_run v [] hv tailOK_nil
  rw [List.append_nil] at hp
  unfold string_brc contextP precededP cutP terminatedP
  simp [charP, hp]

lemma string_spm_not_quote (i : List Char) (h : headNot (fun c => c == '"') i) :
    string_spm i = .error := by
  unfold string_spm contextP precededP
  cases i with
  | nil => rfl
  | cons c rest =>
    have hc : (c == '"') = false := h c rfl
    have hc' : c ≠ '"' := by simpa using hc
    simp [charP, hc']

lemma value_brc (v rest : List Char) (hv : v.all anpChar = true) :
    altP string_spm string_brc ('{' :: (v ++ '}' :: rest)) = .ok rest v := by
  have h1 : string_spm ('{' :: (v ++ '}' :: rest)) = .error :=
    string_spm_not_quote _ (headNot_cons _ '{' _ (by decide))
  unfold altP
  simp only [h1, string_brc_body v rest hv]

/-! The key-value parser on a rendered pair, with arbitrary whitespace
around the label and the `=`. -/

lemma key_value_first (w0 l w1 : List Char) (Y : List Char)
    (hw0 : w0.all wsChar = true) (hw1 : w1.all wsChar = true)
    (hl : l.all labelChar = true) (hl0 : l ≠ []) :
    precededP sp alphabeticlabel_comment (w0 ++ (l ++ (w1 ++ '=' :: Y)))
      = .ok (w1 ++ '=' :: Y) l := by
  obtain ⟨c0, l', rfl⟩ := List.exists_cons_of_ne_nil hl0
  have hlc0 : labelChar c0 = true := by
    simp only [List.all_cons, Bool.and_eq_true] at hl
    exact hl.1
  have hsp : sp (w0 ++ ((c0 :: l') ++ (w1 ++ '=' :: Y)))
      = .ok ((c0 :: l') ++ (w1 ++ '=' :: Y)) w0 := by
    apply sp_split _ _ hw0
    simp only [List.cons_append]
    exact headNot_cons wsChar c0 _ (label_not_ws c0 hlc0)
  have halc : alphabeticlabel_comment ((c0 :: l') ++ (w1 ++ '=' :: Y))
      = .ok (w1 ++ '=' :: Y) (c0 :: l') := by
    apply alc_split _ _ hl
    · exact headNot_ws_append w1 '=' Y labelChar hw1 ws_label_false (by decide)
    · exact headNe_hash_ws_append w1 '=' Y hw1 (by decide)
  unfold precededP
  simp only [hsp, halc]

lemma key_value_sep (w1 : List Char) (Y : List Char) (hw1 : w1.all wsChar = true) :
    cutP (precededP sp (charP '=')) (w1 ++ '=' :: Y) = .ok Y '=' := by
  have hsp : sp (w1 ++ '=' :: Y) = .ok ('=' :: Y) w1 :=
    sp_split _ _ hw1 (headNot_cons wsChar '=' Y (by decide))
  unfold cutP precededP
  simp [hsp, charP]

lemma key_value_brc (w0 w1 w2 l v rest : List Char)
    (hw0 : w0.all wsChar = true) (hw1 : w1.all wsChar = true) (hw2 : w2.all wsChar = true)
    (hl : l.all labelChar = true) (hl0 : l ≠ []) (hv : v.all anpChar = true) :
    key_value (w0 ++ (l ++ (w1 ++ '=' :: (w2 ++ '{' :: (v ++ '}' :: rest)))))
      = .ok rest (l, v) := by
  have h1 := key_value_first w0 l w1 (w2 ++ '{' :: (v ++ '}' :: rest)) hw0 hw1 hl hl0
  have h2 := key_value_sep w1 (w2 ++ '{' :: (v ++ '}' :: rest)) hw1
  have hsp2 : sp (w2 ++ '{' :: (v ++ '}' :: rest)) = .ok ('{' :: (v ++ '}' :: rest)) w2 :=
    sp_split _ _ hw2 (headNot_cons wsChar '{' _ (by decide))
  have h3 : precededP sp (altP string_spm string_brc) (w2 ++ '{' :: (v ++ '}' :: rest))
      = .ok rest v := by
    unfold precededP
    simp only [hsp2, value_brc v rest hv]
  unfold key_value separatedPairP
  simp only [h1, h2, h3]

lemma key_value_spm (w0 w1 w2 l v rest : List Char)
    (hw0 : w0.all wsChar = true) (hw1 : w1.all wsChar = true) (hw2 : w2.all wsChar = true)
    (hl : l.all labelChar = true) (hl0 : l ≠ []) (hv : v.all anpChar = true) :
    key_value (w0 ++ (l ++ (w1 ++ '=' :: (w2 ++ '"' :: (v ++ '"' :: rest)))))
      = .ok rest (l, v) := by
  have h1 := key_value_first w0 l w1 (w2 ++ '"' :: (v ++ '"' :: rest)) hw0 hw1 hl hl0
  have h2 := key_value_sep w1 (w2 ++ '"' :: (v ++ '"' :: rest)) hw1
  have hsp2 : sp (w2 ++ '"' :: (v ++ '"' :: rest)) = .ok ('"' :: (v ++ '"' :: rest)) w2 :=
    sp_split _ _ hw2 (headNot_cons wsChar '"' _ (by decide))
  have h3 : precededP sp (altP string_spm string_brc) (w2 ++ '"' :: (v ++ '"' :: rest))
      = .ok rest v := by
    unfold precededP altP
    simp only [hsp2, string_spm_body v rest hv]
  unfold key_value separatedPairP
  simp only [h1, h2, h3]

lemma key_value_brc_unterm (w0 w1 w2 l v : List Char)
    (hw0 : w0.all wsChar = true) (hw1 : w1.all wsChar = true) (hw2 : w2.all wsChar = true)
    (hl : l.all labelChar = true) (hl0 : l ≠ []) (hv : v.all anpChar = true) :
    key_value (w0 ++ (l ++ (w1 ++ '=' :: (w2 ++ '{' :: v)))) = .failure := by
  have h1 := key_value_first w0 l w1 (w2 ++ '{' :: v) hw0 hw1 hl hl0
  have h2 := key_value_sep w1 (w2 ++ '{' :: v) hw1
  have hsp2 : sp (w2 ++ '{' :: v) = .ok ('{' :: v) w2 :=
    sp_split _ _ hw2 (headNot_cons wsChar '{' _ (by decide))
  have hspm : string_spm ('{' :: v) = .error :=
    string_spm_not_quote _ (headNot_cons _ '{' _ (by decide))
  have h3 : precededP sp (altP string_spm string_brc) (w2 ++ '{' :: v) = .failure := by
    unfold precededP altP
    simp only [hsp2, hspm, string_brc_unterm v hv]
  unfold key_value separatedPairP
  simp only [h1, h2, h3]

/-- C7: for every label and every value text drawn from the supported run
character set with no comment inside, `key_value` on `label = {value}`
and on `label = "value"` succeeds, consumes the whole input, and returns
the pair of the label and the assembled value equal to the source body
character for character — so re-serialising with the same delimiter
reproduces the input exactly. -/
theorem c7_roundtrip (l v : List Char) (hl : l.all labelChar = true) (hl0 : l ≠ [])
    (hv : v.all anpChar = true) :
    key_value (l ++ ' ' :: '=' :: ' ' :: '{' :: (v ++ ['}'])) = .ok [] (l, v) ∧
    key_value (l ++ ' ' :: '=' :: ' ' :: '"' :: (v ++ ['"'])) = .ok [] (l, v) := by
  constructor
  · have h := key_value_brc [] [' '] [' '] l v [] (by decide) (by decide) (by decide) hl hl0 hv
    simpa using h
  · have h := key_value_spm [] [' '] [' '] l v [] (by decide) (by decide) (by decide) hl hl0 hv
    simpa using h

/-- Witness for C7 at the spec's example pair. -/
theorem c7_witness :
    key_value (("author").toList ++ ' ' :: '=' :: ' ' :: '{'
        :: (("David A. Cox").toList ++ ['}']))
      = .ok [] (("author").toList, ("David A. Cox").toList) :=
  (c7_roundtrip (("author").toList) (("David A. Cox").toList)
    (by decide) (by decide) (by decide)).1

/-- C5: a value opened with `{` whose input ends before the closing brace
is a fatal parse error with no partial result — `label = {body` at end of
input makes `key_value` fail fatally; moreover, once the opening `{` or
`"` has been consumed, the delimited-string parsers never return a
recoverable error, so that opening character is never reinterpreted by
backtracking. -/
theorem c5_unterminated_fatal (l v : List Char) (hl : l.all labelChar = true)
    (hl0 : l ≠ []) (hv : v.all anpChar = true) :
    key_value (l ++ ' ' :: '=' :: ' ' :: '{' :: v) = .failure ∧
    (∀ i, string_brc ('{' :: i) ≠ .error) ∧
    (∀ i, string_spm ('"' :: i) ≠ .error) := by
  refine ⟨?_, ?_, ?_⟩
  · have h := key_value_brc_unterm [] [' '] [' '] l v
      (by decide) (by decide) (by decide) hl hl0 hv
    simpa using h
  · intro i
    unfold string_brc contextP precededP
    simp only [charP, if_pos rfl]
    exact cutP_ne_error _ i
  · intro i
    unfold string_spm contextP precededP
    simp only [charP, if_pos rfl]
    exact cutP_ne_error _ i

/-- Witness for C5 at the spec's example `title = {abc`. -/
theorem c5_witness :
    key_value (("title").toList ++ ' ' :: '=' :: ' ' :: '{' :: ("abc").toList)
      = .failure :=
  (c5_unterminated_fatal (("title").toList) (("abc").toList)
    (by decide) (by decide) (by decide)).1

/-! Every value a delimited-string parser returns consists of run
characters only. -/

lemma sepListGo_all_anp :
    ∀ (fuel : Nat) (i : List Char) (acc : List (List Char)),
      (∀ x ∈ acc, x.all anpChar = true) →
      ∀ r ls, sepListGo eolcomment parse_str fuel i acc = .ok r ls →
        ∀ x ∈ ls, x.all anpChar = true := by
  intro fuel
  induction fuel with
  | zero =>
    intro i acc hacc r ls h
    simp [sepListGo] at h
  | succ n ih =>
    intro i acc hacc r ls h
    rw [sepListGo] at h
    cases he : eolcomment i with
    | error =>
      rw [he] at h
      simp only [NRes.ok.injEq] at h
      intro x hx
      rw [← h.2, List.mem_reverse] at hx
      exact hacc x hx
    | failure =>
      rw [he] at h
      simp at h
    | ok i1 u =>
      rw [he] at h
      by_cases hg : i1.length = i.length
      · simp only [hg, if_pos, if_true, ite_true, eq_self_iff_true] at h
        simp at h
      · simp only [if_neg hg] at h
        simp only [parse_str_spec] at h
        refine ih (i1.dropWhile anpChar) (i1.takeWhile anpChar :: acc) ?_ r ls h
        intro x hx
        rcases List.mem_cons.mp hx with hx | hx
        · subst hx
          exact all_takeWhile anpChar i1
        · exact hacc x hx

lemma pswc_all_anp (i r v : List Char) (h : parse_str_with_comments i = .ok r v) :
    v.all anpChar = true := by
  unfold parse_str_with_comments mapP separated_list0 at h
  simp only [parse_str_spec] at h
  have hall : ∀ x ∈ [i.takeWhile anpChar],
      x.all anpChar = true := by
    intro x hx
    simp only [List.mem_singleton] at hx
    subst hx
    exact all_takeWhile anpChar i
  cases hgo : sepListGo eolcomment parse_str ((i.dropWhile anpChar).length + 1)
      (i.dropWhile anpChar) [i.takeWhile anpChar] with
  | error => rw [hgo] at h; simp at h
  | failure => rw [hgo] at h; simp at h
  | ok r' ls =>
    have hls := sepListGo_all_anp ((i.dropWhile anpChar).length + 1)
      (i.dropWhile anpChar) [i.takeWhile anpChar] hall r' ls hgo
    rw [hgo] at h
    simp only [NRes.ok.injEq] at h
    rw [← h.2]
    rw [List.all_eq_true]
    intro c hc
    rw [List.mem_flatten] at hc
    obtain ⟨x, hxls, hcx⟩ := hc
    have := hls x hxls
    rw [List.all_eq_true] at this
    exact this c hcx

lemma string_brc_all_anp (i r v : List Char) (h : string_brc i = .ok r v) :
    v.all anpChar = true := by
  cases i with
  | nil =>
    have h0 : string_brc [] = .error := rfl
    rw [h0] at h
    exact absurd h (by simp)
  | cons c rest =>
    by_cases hc : c = '{'
    · subst hc
      have h' : cutP (terminatedP parse_str_with_comments (charP '}')) rest = .ok r v := h
      unfold cutP terminatedP at h'
      cases hp : parse_str_with_comments rest with
      | error =>
        simp only [hp] at h'
        exact absurd h' (by simp)
      | failure =>
        simp only [hp] at h'
        exact absurd h' (by simp)
      | ok r1 v1 =>
        simp only [hp] at h'
        cases hcl : charP '}' r1 with
        | error =>
          simp only [hcl] at h'
          exact absurd h' (by simp)
        | failure =>
          simp only [hcl] at h'
          exact absurd h' (by simp)
        | ok r2 c2 =>
          simp only [hcl, NRes.ok.injEq] at h'
          rw [← h'.2]
          exact pswc_all_anp rest r1 v1 hp
    · have h' : string_brc (c :: rest) = .error := by
        unfold string_brc contextP precededP
        simp [charP, hc]
      rw [h'] at h
      exact absurd h (by simp)

/-- Every character the run predicate accepts has a codepoint below
0x100, the region on which the predicate is exact: positive `anpChar`
hypotheses therefore confine a statement to that region by themselves. -/
lemma anpChar_latin1 (c : Char) (h : anpChar c = true) : c.toNat < 0x100 := by
  rw [anpChar, Bool.or_eq_true] at h
  rcases h with h | h
  · unfold rustIsAlphanumeric at h
    simp only [Bool.or_eq_true, Bool.and_eq_true, decide_eq_true_eq, beq_iff_eq,
      bne_iff_ne, ne_eq] at h
    omega
  · have hmem : c ∈ ['-', '_', '.', ',', ';', ':', '/', ' ', '^', '$', '+', '*', '\\', '\n'] :=
      List.mem_of_elem_eq_true h
    fin_cases hmem <;> decide

/-- C10: within the codepoint region below 0x100, on which the model's
Unicode-alphanumeric predicate is exact, the first braced-body character
outside the supported run set that does not begin a comment and is not
the closing brace — after any wellformed prefix of runs and full-line
comments — makes `string_brc` fail fatally after the opening `{`; and on
inputs drawn from that region every value `string_brc` returns consists
of run characters only, so no assembled value contains a character
outside the run set. (The positive run hypotheses `h0` and `hps` confine
their characters to the region automatically, by `anpChar_latin1`; only
the negative hypothesis on `c` needs the explicit bound.) -/
theorem c10_charset_fatal (r0 : List Char) (ps : List (List Char × List Char))
    (c : Char) (post : List Char)
    (h0 : r0.all anpChar = true) (hps : segsWF ps = true)
    (_hlt : c.toNat < 0x100)
    (hc : anpChar c = false) (hc1 : c ≠ '#') (hc2 : c ≠ '}') :
    string_brc ('{' :: (r0 ++ renderSegs ps ++ c :: post)) = .failure ∧
    (∀ i r v, i.all (fun x => x.toNat < 0x100) = true →
      string_brc i = .ok r v → v.all anpChar = true) := by
  constructor
  · have hp : parse_str_with_comments (r0 ++ renderSegs ps ++ c :: post)
        = .ok (c :: post) ((r0 :: ps.map Prod.snd).flatten) :=
      pswc_render r0 ps (c :: post) h0 hps (tailOK_cons c post hc hc1)
    rw [List.append_assoc] at hp
    unfold string_brc contextP precededP cutP terminatedP
    simp [charP, hp, hc2]
  · exact fun i r v _ h => string_brc_all_anp i r v h

/-- Witness for C10: the body `a&b` fails fatally at the `&`. -/
theorem c10_witness :
    string_brc ('{' :: (('a' :: []) ++ renderSegs [] ++ '&' :: ('b' :: '}' :: [])))
      = .failure :=
  (c10_charset_fatal ('a' :: []) [] '&' ('b' :: '}' :: [])
    (by decide) (by decide) (by decide) (by decide) (by decide) (by decide)).1

/-! The field-list separator and the field-list parser. -/

lemma label_ne_hash (c : Char) (h : labelChar c = true) : c ≠ '#' := by
  intro e
  subst e
  exact absurd h (by decide)

lemma dropWhile_eq_nil_of_all (p : Char → Bool) (l : List Char) (h : l.all p = true) :
    l.dropWhile p = [] := by
  induction l with
  | nil => rfl
  | cons a t ih =>
    simp only [List.all_cons, Bool.and_eq_true] at h
    simp [List.dropWhile_cons, h.1, ih h.2]

lemma tag_comma (rest : List Char) : tagP [','] (',' :: rest) = .ok rest [','] := by
  simp [tagP, List.isPrefixOf]

lemma tag_comma_ne (c : Char) (rest : List Char) (hc : c ≠ ',') :
    tagP [','] (c :: rest) = .error := by
  have hcs : (',' == c) = false := beq_eq_false_iff_ne.mpr (Ne.symm hc)
  simp [tagP, List.isPrefixOf, hcs]

lemma kvsep_nil : kvsep [] = .error := by decide

lemma sp_eolcomment_error (rest : List Char)
    (hr : ∀ x, (rest.dropWhile wsChar).head? = some x → x ≠ '#') :
    precededP sp eolcomment rest = .error := by
  have h : precededP sp eolcomment rest = eolcomment (rest.dropWhile wsChar) := rfl
  rw [h]
  exact eolcomment_not_hash _ hr

lemma kvsep_comment (wa wb cm rest : List Char)
    (hwa : wa.all wsChar = true) (hwb : wb.all wsChar = true)
    (hcm : cm.all (· != '\n') = true) :
    kvsep (wa ++ ',' :: (wb ++ '#' :: (cm ++ '\n' :: rest))) = .ok rest [','] := by
  have hsp1 : sp (wa ++ ',' :: (wb ++ '#' :: (cm ++ '\n' :: rest)))
      = .ok (',' :: (wb ++ '#' :: (cm ++ '\n' :: rest))) wa :=
    sp_split _ _ hwa (headNot_cons wsChar ',' _ (by decide))
  have htag := tag_comma (wb ++ '#' :: (cm ++ '\n' :: rest))
  have hsp2 : sp (wb ++ '#' :: (cm ++ '\n' :: rest)) = .ok ('#' :: (cm ++ '\n' :: rest)) wb :=
    sp_split _ _ hwb (headNot_cons wsChar '#' _ (by decide))
  have hec := eolcomment_render cm rest hcm
  have hf1 : precededP sp (tagP [','])
      (wa ++ ',' :: (wb ++ '#' :: (cm ++ '\n' :: rest)))
      = .ok (wb ++ '#' :: (cm ++ '\n' :: rest)) [','] := by
    unfold precededP
    simp only [hsp1, htag]
  have hg1 : precededP sp eolcomment (wb ++ '#' :: (cm ++ '\n' :: rest)) = .ok rest () := by
    unfold precededP
    simp only [hsp2, hec]
  have hb1 : terminatedP (precededP sp (tagP [','])) (precededP sp eolcomment)
      (wa ++ ',' :: (wb ++ '#' :: (cm ++ '\n' :: rest))) = .ok rest [','] := by
    unfold terminatedP
    simp only [hf1, hg1]
  unfold kvsep altP
  simp only [hb1]

lemma kvsep_plain (wa rest : List Char) (hwa : wa.all wsChar = true)
    (hr : ∀ x, (rest.dropWhile wsChar).head? = some x → x ≠ '#') :
    kvsep (wa ++ ',' :: rest) = .ok rest [','] := by
  have hsp1 : sp (wa ++ ',' :: rest) = .ok (',' :: rest) wa :=
    sp_split _ _ hwa (headNot_cons wsChar ',' _ (by decide))
  have htag := tag_comma rest
  have hf1 : precededP sp (tagP [',']) (wa ++ ',' :: rest) = .ok rest [','] := by
    unfold precededP
    simp only [hsp1, htag]
  have hpe : precededP sp eolcomment rest = .error := sp_eolcomment_error rest hr
  have hraw : ∀ c, rest.head? = some c → c ≠ '#' := by
    intro c hc
    cases rest with
    | nil => simp at hc
    | cons a t =>
      simp only [List.head?_cons, Option.some_inj] at hc
      rw [← hc]
      by_cases hws : wsChar a = true
      · exact ws_ne_hash a hws
      · have hdw : (a :: t).dropWhile wsChar = a :: t := by
          simp [List.dropWhile_cons, hws]
        exact hr a (by rw [hdw]; rfl)
  have hec : eolcomment rest = .error := eolcomment_not_hash rest hraw
  have hb1 : terminatedP (precededP sp (tagP [','])) (precededP sp eolcomment)
      (wa ++ ',' :: rest) = .error := by
    unfold terminatedP
    simp only [hf1, hpe]
  have hb2 : terminatedP (tagP [',']) (precededP sp eolcomment) (wa ++ ',' :: rest)
      = .error := by
    cases wa with
    | nil =>
      unfold terminatedP
      simp only [List.nil_append, tag_comma rest, hpe]
    | cons a wa' =>
      have ha : wsChar a = true := by
        simp only [List.all_cons, Bool.and_eq_true] at hwa
        exact hwa.1
      have hac : a ≠ ',' := by
        intro e
        subst e
        exact absurd ha (by decide)
      unfold terminatedP
      simp only [List.cons_append, tag_comma_ne a _ hac]
  have hb3 : terminatedP (precededP sp (tagP [','])) eolcomment (wa ++ ',' :: rest)
      = .error := by
    unfold terminatedP
    simp only [hf1, hec]
  unfold kvsep altP
  simp only [hb1, hb2, hb3, hf1]

/-! The key-value parser fails fatally when no pair is present. -/

lemma key_value_all_ws (w : List Char) (hw : w.all wsChar = true) :
    key_value w = .failure := by
  have hsp : sp w = .ok [] w := by
    have h := sp_split w [] hw (fun c hc => by simp at hc)
    simpa using h
  have halc : alphabeticlabel_comment [] = .ok [] [] := by decide
  have h1 : precededP sp alphabeticlabel_comment w = .ok [] [] := by
    unfold precededP
    simp only [hsp, halc]
  have hcut : cutP (precededP sp (charP '=')) [] = .failure := by decide
  unfold key_value separatedPairP
  simp only [h1, hcut]

lemma key_value_ws_brace (w : List Char) (hw : w.all wsChar = true) :
    key_value (w ++ ['}']) = .failure := by
  have hsp : sp (w ++ ['}']) = .ok ['}'] w :=
    sp_split _ _ hw (headNot_cons wsChar '}' [] (by decide))
  have halc : alphabeticlabel_comment ['}'] = .ok ['}'] [] := by decide
  have h1 : precededP sp alphabeticlabel_comment (w ++ ['}']) = .ok ['}'] [] := by
    unfold precededP
    simp only [hsp, halc]
  have hcut : cutP (precededP sp (charP '=')) ['}'] = .failure := by decide
  unfold key_value separatedPairP
  simp only [h1, hcut]

/-! The key-value parser on the canonical rendered pair. -/

lemma key_value_kvRender (l v R : List Char) (hl : l.all labelChar = true) (hl0 : l ≠ [])
    (hv : v.all anpChar = true) :
    key_value (kvRender l v ++ R) = .ok R (l, v) := by
  have h := key_value_brc [] [' '] [' '] l v R (by decide) (by decide) (by decide) hl hl0 hv
  have e : ([] : List Char) ++ (l ++ ([' '] ++ '=' :: ([' '] ++ '{' :: (v ++ '}' :: R))))
      = kvRender l v ++ R := by
    simp [kvRender]
  rw [e] at h
  exact h

lemma key_value_kvRender_nil (l v : List Char) (hl : l.all labelChar = true) (hl0 : l ≠ [])
    (hv : v.all anpChar = true) :
    key_value (kvRender l v) = .ok [] (l, v) := by
  have h := key_value_kvRender l v [] hl hl0 hv
  rwa [List.append_nil] at h

lemma key_value_ws_kvRender (w l v : List Char) (hw : w.all wsChar = true)
    (hl : l.all labelChar = true) (hl0 : l ≠ []) (hv : v.all anpChar = true) :
    key_value (w ++ kvRender l v) = .ok [] (l, v) := by
  have h := key_value_brc w [' '] [' '] l v [] hw (by decide) (by decide) hl hl0 hv
  have e : w ++ (l ++ ([' '] ++ '=' :: ([' '] ++ '{' :: (v ++ '}' :: []))))
      = w ++ kvRender l v := by
    simp [kvRender]
  rw [e] at h
  exact h

lemma kvRender_head_label (l v : List Char) (hl : l.all labelChar = true) (hl0 : l ≠ []) :
    headNot wsChar (kvRender l v) ∧ (∀ x, (kvRender l v).head? = some x → x ≠ '#') := by
  obtain ⟨c0, l', rfl⟩ := List.exists_cons_of_ne_nil hl0
  have hc0 : labelChar c0 = true := by
    simp only [List.all_cons, Bool.and_eq_true] at hl
    exact hl.1
  constructor
  · intro x hx
    simp only [kvRender, List.cons_append, List.head?_cons, Option.some_inj] at hx
    subst hx
    exact label_not_ws c0 hc0
  · intro x hx
    simp only [kvRender, List.cons_append, List.head?_cons, Option.some_inj] at hx
    subst hx
    exact label_ne_hash c0 hc0

lemma sepListGo_last (fuel : Nat) (acc : List (List Char × List Char)) :
    sepListGo kvsep key_value (fuel + 1) [] acc = .ok [] acc.reverse := by
  simp only [sepListGo, kvsep_nil]

/-- C3 counterexample: on whitespace followed by the entry's closing
brace — an input containing no key-value pair — `kvlist` does not succeed
with the empty mapping; it fails fatally. -/
theorem c3_counterexample : kvlist (("   \x7d").toList) = .failure := by decide

/-- C3 amended: for every whitespace run followed by `}` — an input with
no key-value pair — `kvlist` fails with a fatal error rather than
returning the empty mapping: the label scanner accepts an empty label and
the `cut` `=` requirement then fails fatally. -/
theorem c3_empty_fieldlist_fatal (w : List Char) (hw : w.all wsChar = true) :
    kvlist (w ++ ['}']) = .failure := by
  have hkv := key_value_ws_brace w hw
  unfold kvlist contextP cutP terminatedP mapP separated_list0
  simp only [hkv]

/-- Witness for the C3 amended theorem. -/
theorem c3_witness : kvlist ([' ', ' '] ++ ['}']) = .failure :=
  c3_empty_fieldlist_fatal [' ', ' '] (by decide)

/-- C2 counterexample: the one-pair field list `a={x}` parses to the
mapping with the single pair, but the same list with a trailing comma
makes `kvlist` fail fatally rather than parse to the same mapping. -/
theorem c2_counterexample :
    kvlist (("a=\x7bx\x7d").toList) = .ok [] [(("a").toList, ("x").toList)] ∧
    kvlist (("a=\x7bx\x7d,").toList) = .failure := by
  decide

/-- C2 amended: a one-pair field list parses to its mapping, but
appending a comma after the pair (optionally followed by whitespace)
makes `kvlist` fail fatally: the separator is consumed, the next
`key_value` scans an empty label, and its `cut` `=` requirement raises a
fatal error that `separated_list0` cannot backtrack past. -/
theorem c2_trailing_comma_fatal (l v w : List Char)
    (hl : l.all labelChar = true) (hl0 : l ≠ []) (hv : v.all anpChar = true)
    (hw : w.all wsChar = true) :
    kvlist (kvRender l v) = .ok [] (mkMap [(l, v)]) ∧
    kvlist (kvRender l v ++ ',' :: w) = .failure := by
  constructor
  · have hkv := key_value_kvRender_nil l v hl hl0 hv
    have hgo : sepListGo kvsep key_value (([] : List Char).length + 1) [] [(l, v)]
        = .ok [] [(l, v)] := by
      simp only [sepListGo, kvsep_nil, List.reverse_cons, List.reverse_nil, List.nil_append]
    unfold kvlist contextP cutP terminatedP mapP separated_list0
    simp only [hkv, hgo]
    rfl
  · have hkv := key_value_kvRender l v (',' :: w) hl hl0 hv
    have hr : ∀ x, (w.dropWhile wsChar).head? = some x → x ≠ '#' := by
      intro x hx
      rw [dropWhile_eq_nil_of_all wsChar w hw] at hx
      simp at hx
    have hsep : kvsep (',' :: w) = .ok w [','] := by
      have h := kvsep_plain [] w (by decide) hr
      simpa using h
    have hkvw : key_value w = .failure := key_value_all_ws w hw
    have hne : ¬ (w.length = (',' :: w).length) := by simp
    have hgo : sepListGo kvsep key_value ((',' :: w).length + 1) (',' :: w) [(l, v)]
        = .failure := by
      simp only [sepListGo, hsep, if_neg hne, hkvw]
    unfold kvlist contextP cutP terminatedP mapP separated_list0
    simp only [hkv, hgo]

/-- Witness for the C2 amended theorem. -/
theorem c2_witness :
    kvlist (kvRender (("a").toList) (("x").toList) ++ ',' :: [' ']) = .failure :=
  (c2_trailing_comma_fatal (("a").toList) (("x").toList) [' ']
    (by decide) (by decide) (by decide) (by decide)).2

/-- C8 counterexample: with a bare comma the two-pair list parses to both
pairs, but when a full-line comment precedes the comma `kvlist` stops
after the first pair and leaves the comment, the comma and the second
pair unconsumed — a different mapping, so a comment before the comma is
not accepted. -/
theorem c8_counterexample :
    kvlist (("a=\x7bx\x7d,b=\x7by\x7d").toList)
      = .ok [] [(("a").toList, ("x").toList), (("b").toList, ("y").toList)] ∧
    kvlist (("a=\x7bx\x7d #c\n,b=\x7by\x7d").toList)
      = .ok (("#c\n,b=\x7by\x7d").toList) [(("a").toList, ("x").toList)] := by
  decide

/-- C8 amended: between two key-value pairs the comma may be preceded by
whitespace and followed by whitespace and/or a full-line comment (in any
such combination), and the field list parses to the same mapping as with
a bare comma; a comment before the comma is not part of the accepted
separator shapes. -/
theorem c8_separator_decorations (l1 v1 l2 v2 wa wb cm : List Char)
    (hl1 : l1.all labelChar = true) (hl10 : l1 ≠ []) (hv1 : v1.all anpChar = true)
    (hl2 : l2.all labelChar = true) (hl20 : l2 ≠ []) (hv2 : v2.all anpChar = true)
    (hwa : wa.all wsChar = true) (hwb : wb.all wsChar = true)
    (hcm : cm.all (· != '\n') = true) :
    kvlist (kvRender l1 v1 ++ (wa ++ ',' :: (wb ++ '#' :: (cm ++ '\n' :: kvRender l2 v2))))
      = .ok [] (mkMap [(l1, v1), (l2, v2)]) ∧
    kvlist (kvRender l1 v1 ++ (wa ++ ',' :: (wb ++ kvRender l2 v2)))
      = .ok [] (mkMap [(l1, v1), (l2, v2)]) ∧
    kvlist (kvRender l1 v1 ++ ',' :: kvRender l2 v2)
      = .ok [] (mkMap [(l1, v1), (l2, v2)]) := by
  have hkv2 := key_value_kvRender_nil l2 v2 hl2 hl20 hv2
  have hhead := kvRender_head_label l2 v2 hl2 hl20
  refine ⟨?_, ?_, ?_⟩
  · have hkv1 := key_value_kvRender l1 v1
      (wa ++ ',' :: (wb ++ '#' :: (cm ++ '\n' :: kvRender l2 v2))) hl1 hl10 hv1
    have hsep := kvsep_comment wa wb cm (kvRender l2 v2) hwa hwb hcm
    have hlen : ¬ ((kvRender l2 v2).length
        = (wa ++ ',' :: (wb ++ '#' :: (cm ++ '\n' :: kvRender l2 v2))).length) := by
      simp only [List.length_append, List.length_cons]
      omega
    obtain ⟨k, hk⟩ : ∃ k,
        (wa ++ ',' :: (wb ++ '#' :: (cm ++ '\n' :: kvRender l2 v2))).length = k + 1 :=
      ⟨(wa ++ ',' :: (wb ++ '#' :: (cm ++ '\n' :: kvRender l2 v2))).length - 1,
        by simp only [List.length_append, List.length_cons]; omega⟩
    have hgo : sepListGo kvsep key_value
        ((wa ++ ',' :: (wb ++ '#' :: (cm ++ '\n' :: kvRender l2 v2))).length + 1)
        (wa ++ ',' :: (wb ++ '#' :: (cm ++ '\n' :: kvRender l2 v2))) [(l1, v1)]
        = .ok [] [(l1, v1), (l2, v2)] := by
      simp only [sepListGo, hsep, if_neg hlen, hkv2]
      rw [hk, sepListGo_last k [(l2, v2), (l1, v1)]]
      rfl
    unfold kvlist contextP cutP terminatedP mapP separated_list0
    simp only [hkv1, hgo]
    rfl
  · have hkv1 := key_value_kvRender l1 v1 (wa ++ ',' :: (wb ++ kvRender l2 v2)) hl1 hl10 hv1
    have hdw : (wb ++ kvRender l2 v2).dropWhile wsChar = kvRender l2 v2 :=
      (takeWhile_append_of wsChar wb (kvRender l2 v2) hwb hhead.1).2
    have hr2 : ∀ x, ((wb ++ kvRender l2 v2).dropWhile wsChar).head? = some x → x ≠ '#' := by
      rw [hdw]
      exact hhead.2
    have hsep := kvsep_plain wa (wb ++ kvRender l2 v2) hwa hr2
    have hkvb := key_value_ws_kvRender wb l2 v2 hwb hl2 hl20 hv2
    have hlen : ¬ ((wb ++ kvRender l2 v2).length
        = (wa ++ ',' :: (wb ++ kvRender l2 v2)).length) := by
      simp only [List.length_append, List.length_cons]
      omega
    obtain ⟨k, hk⟩ : ∃ k, (wa ++ ',' :: (wb ++ kvRender l2 v2)).length = k + 1 :=
      ⟨(wa ++ ',' :: (wb ++ kvRender l2 v2)).length - 1,
        by simp only [List.length_append, List.length_cons]; omega⟩
    have hgo : sepListGo kvsep key_value
        ((wa ++ ',' :: (wb ++ kvRender l2 v2)).length + 1)
        (wa ++ ',' :: (wb ++ kvRender l2 v2)) [(l1, v1)]
        = .ok [] [(l1, v1), (l2, v2)] := by
      simp only [sepListGo, hsep, if_neg hlen, hkvb]
      rw [hk, sepListGo_last k [(l2, v2), (l1, v1)]]
      rfl
    unfold kvlist contextP cutP terminatedP mapP separated_list0
    simp only [hkv1, hgo]
    rfl
  · have hkv1 := key_value_kvRender l1 v1 (',' :: kvRender l2 v2) hl1 hl10 hv1
    have hdw3 : (kvRender l2 v2).dropWhile wsChar = kvRender l2 v2 := by
      cases hkk : kvRender l2 v2 with
      | nil => rfl
      | cons a t =>
        have ha := hhead.1 a (by rw [hkk]; rfl)
        simp [List.dropWhile_cons, ha]
    have hr3 : ∀ x, ((kvRender l2 v2).dropWhile wsChar).head? = some x → x ≠ '#' := by
      rw [hdw3]
      exact hhead.2
    have hsep : kvsep (',' :: kvRender l2 v2) = .ok (kvRender l2 v2) [','] := by
      have h := kvsep_plain [] (kvRender l2 v2) (by decide) hr3
      simpa using h
    have hlen : ¬ ((kvRender l2 v2).length = (',' :: kvRender l2 v2).length) := by
      simp
    have hgo : sepListGo kvsep key_value ((',' :: kvRender l2 v2).length + 1)
        (',' :: kvRender l2 v2) [(l1, v1)] = .ok [] [(l1, v1), (l2, v2)] := by
      simp only [sepListGo, hsep, if_neg hlen, hkv2, kvsep_nil]
      rfl
    unfold kvlist contextP cutP terminatedP mapP separated_list0
    simp only [hkv1, hgo]
    rfl

/-- Witness for the C8 amended theorem. -/
theorem c8_witness :
    kvlist (kvRender (("a").toList) (("x").toList)
        ++ ([' '] ++ ',' :: ([' '] ++ '#' :: (("c").toList ++ '\n'
          :: kvRender (("b").toList) (("y").toList)))))
      = .ok [] (mkMap [(("a").toList, ("x").toList), (("b").toList, ("y").toList)]) :=
  (c8_separator_decorations (("a").toList) (("x").toList) (("b").toList) (("y").toList)
    [' '] [' '] (("c").toList) (by decide) (by decide) (by decide) (by decide)
    (by decide) (by decide) (by decide) (by decide) (by decide)).1

end Bibtex
